import Mathlib

/-!
Shallow embedding of the passerine bytecode VM core (`src/vm/vm.rs`).

The execution stack is modelled as a `List Item` whose HEAD is the TOP of
the Rust `Vec`-based stack (`push` = cons, `pop` = head/tail); consequently
stack indices in this development count from the top of the stack, the
direction in which `find_local` scans.  Every use site of an index
(`save`'s in-place replacement, `load`'s read) is translated consistently,
so the behaviour is that of the source.

Rust process aborts (`panic` calls, out-of-bounds indexing) are modelled as
a distinct `StepOut.panic` outcome carrying a `Fault`; a handler returning
`None` through `RunResult` (the `?` operator on `Stack::pop`) is modelled
as `StepOut.fail` carrying the state as mutated so far.  The interpreter
loop is given explicit fuel; `RunOut.outOfFuel` marks a run that did not
terminate within the fuel.
-/

/-- Modelled from the spec (the file `vm/data.rs` is not under `src/`):
a runtime value is one of unit, number, string, boolean (§3 Tagged Value).
Numbers are modelled as rationals; no claim depends on numeric arithmetic. -/
inductive Data where
  | unit    : Data
  | number  : Rat → Data
  | str     : String → Data
  | boolean : Bool → Data
deriving DecidableEq

/-- Modelled from the spec (the file `vm/data.rs` is not under `src/`):
`Tagged` wraps a runtime value; `Tagged::from` wraps a `Data`, and
`deref` produces an owned copy of the wrapped value (§3, Glossary). -/
structure Tagged where
  val : Data
deriving DecidableEq

/-- `Tagged::from(data)` (modelled from the spec). -/
def Tagged.ofData (d : Data) : Tagged := ⟨d⟩

/-- `Tagged::deref` yields an owned copy of the wrapped value
(modelled from the spec). -/
def Tagged.deref (t : Tagged) : Data := t.val

/-- Modelled from the spec (the file `vm/local.rs` is not under `src/`):
a local descriptor is an equality-comparable identity token (§3). -/
structure Local where
  id : Nat
deriving DecidableEq

/-- Modelled from the spec (the file `vm/stack.rs` is not under `src/`):
a stack item is data, a named local binding, or a scope-frame marker (§3).
`local_` mirrors the Rust variant `Item::Local` (`local` is a Lean keyword). -/
inductive Item where
  | data   : Tagged → Item
  | local_ : Local → Data → Item
  | frame  : Item
deriving DecidableEq

/-- Whether a stack item is a `Data` item. -/
def isData : Item → Bool
  | .data _ => true
  | _ => false

/-- Modelled from the spec (the file `pipeline/bytecode.rs` is not under
`src/`): a chunk is instruction bytes, a constant pool, and a table of
local descriptors (§3).  Bytes are modelled as `Nat`. -/
structure Chunk where
  code      : List Nat
  constants : List Data
  locals    : List Local
deriving DecidableEq

/-- `Chunk::empty()` (modelled from the spec / `VM::init`). -/
def Chunk.empty : Chunk := ⟨[], [], []⟩

/-- Modelled from the spec (the file `pipeline/bytecode.rs` is not under
`src/`): the four opcodes (§2, §4.3-§4.6). -/
inductive Opcode where
  | con | save | load | clear
deriving DecidableEq

/-- Modelled from the spec: `Opcode::from_byte`; the concrete byte values
are an internal contract between the generator and the VM, fixed here as
0 = Con, 1 = Save, 2 = Load, 3 = Clear. -/
def Opcode.from_byte (b : Nat) : Opcode :=
  if b = 0 then .con else if b = 1 then .save else if b = 2 then .load else .clear

/-- Fault categories for Rust process aborts and decode errors (§7). -/
inductive Fault where
  | decodeFault   -- operand bytes end before a complete encoding (§4.1)
  | oobCode       -- slicing / peeking past the end of `code`
  | oobConstant   -- operand indexes outside `constants`
  | oobLocal      -- operand indexes outside `locals`
  | oobStack      -- indexing the stack out of bounds
  | expectedData  -- `save` found a non-`Data` top of stack
  | localNotFound -- `load` failed to resolve its descriptor
deriving DecidableEq

/-- `VM` state: current chunk, execution stack (head = top), and
instruction pointer (`src/vm/vm.rs`, struct `VM`). -/
structure VM where
  chunk : Chunk
  stack : List Item
  ip    : Nat
deriving DecidableEq

/-- `VM::init()`: empty chunk, a single bottom `Frame`, ip 0. -/
def VM.init : VM := ⟨Chunk.empty, [Item.frame], 0⟩

/-- `VM::done` advances the instruction pointer by one (the state part of
`fn done`; the `Some(())` result is carried by `StepOut.ok`). -/
def VM.done (s : VM) : VM := { s with ip := s.ip + 1 }

/-- Outcome of one opcode handler: success, a reported `RunResult`
failure (`None`, state as mutated so far), or a process abort. -/
inductive StepOut where
  | ok    : VM → StepOut
  | fail  : VM → StepOut
  | panic : Fault → StepOut
deriving DecidableEq

/-- Outcome of the fuelled interpreter loop. -/
inductive RunOut where
  | done      : VM → RunOut
  | panic     : Fault → RunOut
  | outOfFuel : RunOut
deriving DecidableEq

/-- Modelled from the spec (the file `utils/number.rs` is not under
`src/`): the accumulator loop of `build_number` over a variable-length
encoding; 7-bit groups, most significant first, with the high bit clear on
the final byte; returns the decoded value and the count of bytes eaten, or
`none` when the stream ends before a complete encoding — per §4.1 a fatal
decode error, not a recoverable condition. -/
def build_number_aux : List Nat → Nat → Nat → Option (Nat × Nat)
  | [], _, _ => none
  | b :: rest, acc, eaten =>
      let acc' := acc * 128 + b % 128
      if b < 128 then some (acc', eaten + 1) else build_number_aux rest acc' (eaten + 1)

/-- Modelled from the spec: `build_number` (§4.1 Operand Decoder). -/
def build_number (bytes : List Nat) : Option (Nat × Nat) :=
  build_number_aux bytes 0 0

/-- `VM::next_number`: advance past the opcode byte, decode one
variable-length operand from the remaining code bytes, and leave the ip on
the last byte of the encoding.  A truncated encoding is a decode fault;
slicing `code[ip..]` with `ip` past the end is an out-of-bounds abort. -/
def next_number (s : VM) : Except Fault (Nat × VM) :=
  let ip1 := s.ip + 1
  if ip1 ≤ s.chunk.code.length then
    match build_number (s.chunk.code.drop ip1) with
    | none => .error .decodeFault
    | some (n, eaten) => .ok (n, { s with ip := ip1 + eaten - 1 })
  else .error .oobCode

/-- `VM::find_local`: scan the stack from the top downward; return the
index of the first `Local` whose descriptor equals the target, stop with
`none` at the first `Frame`, skip `Data` items.  Indices count from the
top of the stack (see the header comment). -/
def find_local : List Item → Local → Option Nat
  | [], _ => none
  | .data _ :: rest, l => (find_local rest l).map (fun i => i + 1)
  | .local_ l' _ :: rest, l =>
      if l' = l then some 0 else (find_local rest l).map (fun i => i + 1)
  | .frame :: _, _ => none

/-- `VM::local_index`: decode the operand, look the descriptor up in the
chunk's `locals` table (out of bounds is an abort), and resolve it on the
stack with `find_local`. -/
def local_index (s : VM) : Except Fault (Local × Option Nat × VM) :=
  match next_number s with
  | .error f => .error f
  | .ok (li, s1) =>
    match s1.chunk.locals[li]? with
    | none => .error .oobLocal
    | some l => .ok (l, find_local s1.stack l, s1)

/-- `VM::con`: decode a constant index, push a `Data` item wrapping the
cloned constant, advance past the operand. -/
def con (s : VM) : StepOut :=
  match next_number s with
  | .error f => .panic f
  | .ok (index, s1) =>
    match s1.chunk.constants[index]? with
    | none => .panic .oobConstant
    | some c => .ok (VM.done { s1 with stack := .data (Tagged.ofData c) :: s1.stack })

/-- `VM::save`: pop the top item (`pop()?` on an empty stack is a reported
failure); a non-`Data` top is an abort; dereference the value, resolve the
descriptor on the remaining stack, and either replace the binding in place
or push a new `Local` item. -/
def save (s : VM) : StepOut :=
  match s.stack with
  | [] => .fail s
  | .data t :: rest =>
    match local_index { s with stack := rest } with
    | .error f => .panic f
    | .ok (l, some i, s1) =>
        .ok (VM.done { s1 with stack := s1.stack.set i (.local_ l t.deref) })
    | .ok (l, none, s1) =>
        .ok (VM.done { s1 with stack := .local_ l t.deref :: s1.stack })
  | _ :: _ => .panic .expectedData

/-- `VM::load`: resolve the descriptor; on success read the binding at the
returned index and push a `Data` item wrapping a clone of its value (the
`if let` in the source pushes nothing when the item is not a `Local`);
failure to resolve is an abort. -/
def load (s : VM) : StepOut :=
  match local_index s with
  | .error f => .panic f
  | .ok (_, some i, s1) =>
    match s1.stack[i]? with
    | some (.local_ _ d) =>
        .ok (VM.done { s1 with stack := .data (Tagged.ofData d) :: s1.stack })
    | some _ => .ok (VM.done s1)
    | none => .panic .oobStack
  | .ok (_, none, _) => .panic .localNotFound

/-- The pop loop of `VM::clear` on the bare stack: pop while the top is
`Data`; push the first non-`Data` item back; `none` when the stack is
exhausted first (`pop()?`). -/
def clear_loop : List Item → Option (List Item)
  | [] => none
  | x :: rest => if isData x then clear_loop rest else some (x :: rest)

/-- `VM::clear`: discard contiguous `Data` items from the top; on stack
exhaustion report failure with the stack emptied by the pops. -/
def clear (s : VM) : StepOut :=
  match clear_loop s.stack with
  | none => .fail { s with stack := [] }
  | some st => .ok (VM.done { s with stack := st })

/-- `VM::step`: fetch the opcode byte at the ip and dispatch.  Peeking
past the end of `code` is an abort (the loop guard prevents it). -/
def step (s : VM) : StepOut :=
  match s.chunk.code[s.ip]? with
  | none => .panic .oobCode
  | some b =>
    match Opcode.from_byte b with
    | .con => con s
    | .save => save s
    | .load => load s
    | .clear => clear s

/-- The `while self.ip < self.chunk.code.len()` loop of `VM::run`, with
explicit fuel.  The source executes `self.step();` and DISCARDS the
result, so a reported failure does not leave the loop: the loop continues
with the state as mutated so far.  An abort propagates. -/
def run_loop : Nat → VM → RunOut
  | 0, _ => .outOfFuel
  | fuel + 1, s =>
    if s.ip < s.chunk.code.length then
      match step s with
      | .ok s1 => run_loop fuel s1
      | .fail s1 => run_loop fuel s1
      | .panic f => .panic f
    else .done s

/-- `VM::run`: swap the given chunk in, run the loop, swap the previous
chunk back (the ip and the stack are carried over untouched). -/
def run (v : VM) (c : Chunk) (fuel : Nat) : RunOut :=
  match run_loop fuel { v with chunk := c } with
  | .done s1 => .done { s1 with chunk := v.chunk }
  | r => r

/-! ## Helper lemmas -/

/-- `build_number_aux` eats at least one byte and at most all of them. -/
lemma build_number_aux_eaten :
    ∀ (bs : List Nat) (acc k n e), build_number_aux bs acc k = some (n, e) →
      k + 1 ≤ e ∧ e ≤ k + bs.length := by
  intro bs
  induction bs with
  | nil => intro acc k n e h; simp [build_number_aux] at h
  | cons b rest ih =>
    intro acc k n e h
    simp only [build_number_aux] at h
    by_cases hb : b < 128
    · rw [if_pos hb] at h
      obtain ⟨-, he⟩ := Prod.mk.injEq .. ▸ Option.some.inj h
      simp only [List.length_cons]
      omega
    · rw [if_neg hb] at h
      have := ih _ _ _ _ h
      simp only [List.length_cons]
      omega

/-- `build_number` eats between one byte and the whole stream. -/
lemma build_number_eaten {bs : List Nat} {n e : Nat}
    (h : build_number bs = some (n, e)) : 1 ≤ e ∧ e ≤ bs.length := by
  simpa using build_number_aux_eaten bs 0 0 n e h


/-- Inversion of a successful `next_number`: the chunk and the stack are
untouched, and the ip advances by the number of operand bytes eaten,
landing on the last byte of the (in-bounds) encoding. -/
lemma next_number_ok {s : VM} {n : Nat} {s1 : VM}
    (h : next_number s = .ok (n, s1)) :
    s1.chunk = s.chunk ∧ s1.stack = s.stack ∧ s.ip + 1 ≤ s.chunk.code.length ∧
      ∃ e, build_number (s.chunk.code.drop (s.ip + 1)) = some (n, e) ∧
        1 ≤ e ∧ e ≤ s.chunk.code.length - (s.ip + 1) ∧ s1.ip = s.ip + e := by
  simp only [next_number] at h
  split at h
  case isTrue hle =>
    split at h
    case h_1 => exact absurd h (by simp)
    case h_2 n' e heq =>
      have h' := Except.ok.inj h
      have hn : n' = n := congrArg Prod.fst h'
      have hs : ({ s with ip := s.ip + 1 + e - 1 } : VM) = s1 := congrArg Prod.snd h'
      subst hn
      subst hs
      have he := build_number_eaten heq
      rw [List.length_drop] at he
      refine ⟨rfl, rfl, hle, e, heq, he.1, he.2, ?_⟩
      show s.ip + 1 + e - 1 = s.ip + e
      omega
  case isFalse => exact absurd h (by simp)

/-- Inversion of a successful `local_index`: the chunk and the stack are
untouched, the returned option is `find_local` on that stack, the looked-up
descriptor is in the chunk's `locals` table, and the ip lands on the last
operand byte, strictly inside `code`. -/
lemma local_index_ok {s : VM} {l : Local} {r : Option Nat} {s1 : VM}
    (h : local_index s = .ok (l, r, s1)) :
    s1.chunk = s.chunk ∧ s1.stack = s.stack ∧ r = find_local s.stack l ∧
      s1.ip + 1 ≤ s.chunk.code.length ∧ s.ip < s1.ip + 1 := by
  unfold local_index at h
  split at h
  case h_1 => exact absurd h (by simp)
  case h_2 li s' heq =>
    obtain ⟨hc, hst, hle, e, -, he1, he2, hip⟩ := next_number_ok heq
    split at h
    case h_1 => exact absurd h (by simp)
    case h_2 l' hl =>
      have h' := Except.ok.inj h
      have h1 : l' = l := congrArg Prod.fst h'
      have h2 : find_local s'.stack l' = r := congrArg Prod.fst (congrArg Prod.snd h')
      have h3 : s' = s1 := congrArg Prod.snd (congrArg Prod.snd h')
      subst h1
      subst h3
      rw [hst] at h2
      exact ⟨hc, hst, h2.symm, by omega, by omega⟩

/-- Soundness of `find_local`: a returned index points at a `Local` item
whose descriptor equals the target. -/
lemma find_local_sound :
    ∀ (s : List Item) (l : Local) (i : Nat), find_local s l = some i →
      ∃ d, s[i]? = some (Item.local_ l d) := by
  intro s
  induction s with
  | nil => intro l i h; simp [find_local] at h
  | cons x rest ih =>
    intro l i h
    cases x with
    | data t =>
      simp only [find_local] at h
      cases hr : find_local rest l with
      | none => rw [hr] at h; simp at h
      | some j =>
        rw [hr] at h
        simp only [Option.map_some'] at h
        obtain rfl : j + 1 = i := Option.some.inj h
        obtain ⟨d, hd⟩ := ih l j hr
        exact ⟨d, by simpa using hd⟩
    | local_ l' d' =>
      simp only [find_local] at h
      by_cases hl : l' = l
      · rw [if_pos hl] at h
        obtain rfl : 0 = i := Option.some.inj h
        exact ⟨d', by simp [hl]⟩
      · rw [if_neg hl] at h
        cases hr : find_local rest l with
        | none => rw [hr] at h; simp at h
        | some j =>
          rw [hr] at h
          simp only [Option.map_some'] at h
          obtain rfl : j + 1 = i := Option.some.inj h
          obtain ⟨d, hd⟩ := ih l j hr
          exact ⟨d, by simpa using hd⟩
    | frame => simp [find_local] at h

/-- Replacing the binding `find_local` found with a new binding of the same
descriptor leaves it the binding `find_local` finds. -/
lemma find_local_set :
    ∀ (s : List Item) (l : Local) (i : Nat) (d : Data), find_local s l = some i →
      find_local (s.set i (Item.local_ l d)) l = some i := by
  intro s
  induction s with
  | nil => intro l i d h; simp [find_local] at h
  | cons x rest ih =>
    intro l i d h
    cases x with
    | data t =>
      simp only [find_local] at h
      cases hr : find_local rest l with
      | none => rw [hr] at h; simp at h
      | some j =>
        rw [hr] at h
        simp only [Option.map_some'] at h
        obtain rfl : j + 1 = i := Option.some.inj h
        simp only [List.set_cons_succ, find_local, ih l j d hr,
          Option.map_some']
    | local_ l' d' =>
      simp only [find_local] at h
      by_cases hl : l' = l
      · rw [if_pos hl] at h
        obtain rfl : 0 = i := Option.some.inj h
        simp [find_local]
      · rw [if_neg hl] at h
        cases hr : find_local rest l with
        | none => rw [hr] at h; simp at h
        | some j =>
          rw [hr] at h
          simp only [Option.map_some'] at h
          obtain rfl : j + 1 = i := Option.some.inj h
          simp only [List.set_cons_succ, find_local, if_neg hl, ih l j d hr,
            Option.map_some']
    | frame => simp [find_local] at h

/-- The "nothing relevant above index `k`" condition shifts across a cons
whose head is neither a `Frame` nor a matching `Local`. -/
lemma above_cons {x : Item} {rest : List Item} {l : Local} {k : Nat}
    (hx1 : x ≠ Item.frame) (hx2 : ∀ d, x ≠ Item.local_ l d) :
    (∀ j, j < k + 1 →
        (x :: rest)[j]? ≠ some Item.frame ∧ ∀ d, (x :: rest)[j]? ≠ some (Item.local_ l d)) ↔
      (∀ j, j < k → rest[j]? ≠ some Item.frame ∧ ∀ d, rest[j]? ≠ some (Item.local_ l d)) := by
  constructor
  · intro h j hj
    have := h (j + 1) (by omega)
    simpa using this
  · intro h j hj
    cases j with
    | zero =>
      constructor
      · simpa using hx1
      · intro d
        simpa using hx2 d
    | succ m => simpa using h m (by omega)

/-- C1.  `find_local` scans the stack from the top downward (indices count
from the top) and returns the index of the first `Local` item whose
descriptor equals the target — the topmost, most recent matching binding:
it returns `some i` exactly when the item at `i` is a matching `Local` and
no item nearer the top is a `Frame` marker (which would have stopped the
scan with "not found") or a matching `Local`; `Data` items above `i` are
allowed, i.e. skipped without terminating the scan. -/
theorem find_local_spec (s : List Item) (l : Local) (i : Nat) :
    find_local s l = some i ↔
      ((∃ d, s[i]? = some (Item.local_ l d)) ∧
        ∀ j, j < i →
          s[j]? ≠ some Item.frame ∧ ∀ d, s[j]? ≠ some (Item.local_ l d)) := by
  induction s generalizing i with
  | nil => simp [find_local]
  | cons x rest ih =>
    cases x with
    | data t =>
      cases i with
      | zero =>
        cases hr : find_local rest l <;> simp [find_local, hr]
      | succ k =>
        have hmap : find_local (Item.data t :: rest) l = some (k + 1) ↔
            find_local rest l = some k := by
          cases hr : find_local rest l with
          | none => simp [find_local, hr]
          | some j =>
            simp only [find_local, hr, Option.map_some', Option.some.injEq]
            omega
        rw [hmap, ih k,
          @above_cons (Item.data t) rest l k (by simp) (by simp)]
        simp
    | local_ l' d' =>
      by_cases hl : l' = l
      · subst hl
        cases i with
        | zero => simp [find_local]
        | succ k =>
          constructor
          · intro h
            exact absurd h (by simp [find_local])
          · rintro ⟨-, hab⟩
            exact absurd (by simp : ((Item.local_ l' d' :: rest)[0]? = some (Item.local_ l' d')))
              ((hab 0 (by omega)).2 d')
      · cases i with
        | zero =>
          cases hr : find_local rest l <;> simp [find_local, hr, hl]
        | succ k =>
          have hmap : find_local (Item.local_ l' d' :: rest) l = some (k + 1) ↔
              find_local rest l = some k := by
            cases hr : find_local rest l with
            | none => simp [find_local, hr, hl]
            | some j =>
              simp only [find_local, if_neg hl, hr, Option.map_some', Option.some.injEq]
              omega
          rw [hmap, ih k,
            @above_cons (Item.local_ l' d') rest l k (by simp) (fun d => by simp [hl])]
          simp
    | frame =>
      cases i with
      | zero => simp [find_local]
      | succ k =>
        simp only [find_local]
        constructor
        · intro h
          exact absurd h (by simp)
        · rintro ⟨-, hab⟩
          exact absurd (by simp : ((Item.frame :: rest)[0]? = some Item.frame))
            ((hab 0 (by omega)).1)

/-- The stack is non-empty and its bottom (last) item is the `Frame`
marker pushed by `VM::init`. -/
def hasBottomFrame : List Item → Bool
  | [] => false
  | [x] => decide (x = Item.frame)
  | _ :: x :: rest => hasBottomFrame (x :: rest)

lemma hasBottomFrame_cons {xs : List Item} (x : Item)
    (h : hasBottomFrame xs = true) : hasBottomFrame (x :: xs) = true := by
  cases xs with
  | nil => simp [hasBottomFrame] at h
  | cons y rest => simpa [hasBottomFrame] using h

lemma hasBottomFrame_tail {x : Item} {xs : List Item}
    (h : hasBottomFrame (x :: xs) = true) (hx : x ≠ Item.frame) :
    hasBottomFrame xs = true := by
  cases xs with
  | nil => simp [hasBottomFrame] at h; exact absurd h hx
  | cons y rest => simpa [hasBottomFrame] using h

lemma hasBottomFrame_ne_nil {xs : List Item} (h : hasBottomFrame xs = true) :
    xs ≠ [] := by
  intro hnil
  rw [hnil] at h
  simp [hasBottomFrame] at h

/-- The bottom item of a stack with a bottom frame is the frame. -/
lemma hasBottomFrame_getLast {xs : List Item} (h : hasBottomFrame xs = true) :
    xs.getLast? = some Item.frame := by
  induction xs with
  | nil => simp [hasBottomFrame] at h
  | cons x rest ih =>
    cases rest with
    | nil =>
      simp [hasBottomFrame] at h
      simp [h]
    | cons y r =>
      rw [List.getLast?_cons_cons]
      exact ih (by simpa [hasBottomFrame] using h)

/-- Replacing an item that is a `Local` binding keeps the bottom frame. -/
lemma hasBottomFrame_set {xs : List Item} {i : Nat} {l : Local} {d : Data} (y : Item)
    (h : hasBottomFrame xs = true) (hi : xs[i]? = some (Item.local_ l d)) :
    hasBottomFrame (xs.set i y) = true := by
  induction xs generalizing i with
  | nil => simp at hi
  | cons x rest ih =>
    cases i with
    | zero =>
      have hx : x = Item.local_ l d := by simpa using hi
      cases rest with
      | nil => rw [hx] at h; simp [hasBottomFrame] at h
      | cons z r =>
        rw [List.set_cons_zero]
        simpa [hasBottomFrame] using (by simpa [hasBottomFrame] using h : hasBottomFrame (z :: r) = true)
    | succ k =>
      have hk : rest[k]? = some (Item.local_ l d) := by simpa using hi
      cases rest with
      | nil => simp at hk
      | cons z r =>
        rw [List.set_cons_succ]
        have h' : hasBottomFrame (z :: r) = true := by simpa [hasBottomFrame] using h
        have := ih h' hk
        cases hzr : (z :: r).set k y with
        | nil => exact absurd hzr (by simp)
        | cons w ws =>
          rw [hzr] at this
          simpa [hasBottomFrame] using this

/-- The pop loop of `clear` never pops the bottom frame: with a bottom
frame present it succeeds and the result keeps the bottom frame. -/
lemma clear_loop_hasBottomFrame {xs : List Item} (h : hasBottomFrame xs = true) :
    ∃ ys, clear_loop xs = some ys ∧ hasBottomFrame ys = true := by
  induction xs with
  | nil => simp [hasBottomFrame] at h
  | cons x rest ih =>
    by_cases hx : isData x = true
    · have hxf : x ≠ Item.frame := by
        intro hf
        rw [hf] at hx
        simp [isData] at hx
      obtain ⟨ys, h1, h2⟩ := ih (hasBottomFrame_tail h hxf)
      exact ⟨ys, by simp [clear_loop, hx, h1], h2⟩
    · exact ⟨x :: rest, by simp [clear_loop, hx], h⟩

/-- Inversion of a successful `con`: the chunk is untouched, the ip stays
within `code`, and exactly one `Data` item wrapping a constant is pushed. -/
lemma con_ok_inv {s s1 : VM} (h : con s = .ok s1) :
    s1.chunk = s.chunk ∧ s1.ip ≤ s.chunk.code.length ∧
      ∃ c, s1.stack = Item.data (Tagged.ofData c) :: s.stack := by
  unfold con at h
  split at h
  case h_1 => exact absurd h (by simp)
  case h_2 index s' heq =>
    obtain ⟨hc, hst, hle, e, -, he1, he2, hip⟩ := next_number_ok heq
    split at h
    case h_1 => exact absurd h (by simp)
    case h_2 c hcon =>
      have h1 := StepOut.ok.inj h
      subst h1
      refine ⟨hc, ?_, c, ?_⟩
      · dsimp only [VM.done]
        omega
      · dsimp only [VM.done]
        rw [hst]

/-- Inversion of a failed `save`: only an empty stack fails (the `pop()?`),
and the state is returned unchanged. -/
lemma save_fail_inv {s s1 : VM} (h : save s = .fail s1) : s1 = s ∧ s.stack = [] := by
  unfold save at h
  split at h
  case h_1 hnil => exact ⟨(StepOut.fail.inj h).symm, hnil⟩
  case h_2 t rest heq =>
    split at h <;> exact absurd h (by simp)
  case h_3 => exact absurd h (by simp)

/-- Inversion of a successful `save`: the chunk is untouched, the ip stays
within `code`, the top of stack was a `Data` item and was consumed, and
the binding was either replaced in place at the index `find_local`
returned, or pushed as a new `Local`. -/
lemma save_ok_inv {s s1 : VM} (h : save s = .ok s1) :
    s1.chunk = s.chunk ∧ s1.ip ≤ s.chunk.code.length ∧
      ∃ t rest, s.stack = Item.data t :: rest ∧
        ((∃ l i d, find_local rest l = some i ∧ rest[i]? = some (Item.local_ l d) ∧
            s1.stack = rest.set i (Item.local_ l t.deref)) ∨
          (∃ l, find_local rest l = none ∧ s1.stack = Item.local_ l t.deref :: rest)) := by
  unfold save at h
  split at h
  case h_1 => exact absurd h (by simp)
  case h_2 t rest heq =>
    split at h
    case h_1 => exact absurd h (by simp)
    case h_2 l i s' hli =>
      obtain ⟨hc, hst, hr, hle, hlt⟩ := local_index_ok hli
      dsimp only at hc hst hr hle hlt
      have h1 := StepOut.ok.inj h
      subst h1
      obtain ⟨d, hd⟩ := find_local_sound rest l i hr.symm
      refine ⟨hc, ?_, t, rest, heq, Or.inl ⟨l, i, d, hr.symm, hd, ?_⟩⟩
      · dsimp only [VM.done]
        omega
      · dsimp only [VM.done]
        rw [hst]
    case h_3 l s' hli =>
      obtain ⟨hc, hst, hr, hle, hlt⟩ := local_index_ok hli
      dsimp only at hc hst hr hle hlt
      have h1 := StepOut.ok.inj h
      subst h1
      refine ⟨hc, ?_, t, rest, heq, Or.inr ⟨l, hr.symm, ?_⟩⟩
      · dsimp only [VM.done]
        omega
      · dsimp only [VM.done]
        rw [hst]
  case h_3 => exact absurd h (by simp)

/-- `con` never reports a `RunResult` failure (it can only abort). -/
lemma con_not_fail {s s1 : VM} : con s ≠ .fail s1 := by
  unfold con
  split
  case h_1 => simp
  case h_2 => split <;> simp

/-- `load` never reports a `RunResult` failure (it can only abort). -/
lemma load_not_fail {s s1 : VM} : load s ≠ .fail s1 := by
  unfold load
  split
  case h_1 => simp
  case h_2 =>
    split <;> simp
  case h_3 => simp

/-- Inversion of a successful `load`: the chunk is untouched, the ip stays
within `code`, and the stack either gains exactly one `Data` item on top
(the resolved binding was a `Local`) or is unchanged. -/
lemma load_ok_inv {s s1 : VM} (h : load s = .ok s1) :
    s1.chunk = s.chunk ∧ s1.ip ≤ s.chunk.code.length ∧
      (s1.stack = s.stack ∨ ∃ d, s1.stack = Item.data (Tagged.ofData d) :: s.stack) := by
  unfold load at h
  split at h
  case h_1 => exact absurd h (by simp)
  case h_2 l i s' hli =>
    obtain ⟨hc, hst, hr, hle, hlt⟩ := local_index_ok hli
    split at h
    case h_1 l' d hd =>
      have h1 := StepOut.ok.inj h
      subst h1
      refine ⟨hc, ?_, Or.inr ⟨d, ?_⟩⟩
      · dsimp only [VM.done]
        omega
      · dsimp only [VM.done]
        rw [hst]
    case h_2 =>
      have h1 := StepOut.ok.inj h
      subst h1
      refine ⟨hc, ?_, Or.inl ?_⟩
      · dsimp only [VM.done]
        omega
      · dsimp only [VM.done]
        exact hst
    case h_3 => exact absurd h (by simp)
  case h_3 => exact absurd h (by simp)

/-- Inversion of a failed `clear`: the pop loop exhausted the stack, and
the failure state carries the emptied stack with the ip untouched. -/
lemma clear_fail_inv {s s1 : VM} (h : clear s = .fail s1) :
    s1 = { s with stack := [] } ∧ clear_loop s.stack = none := by
  unfold clear at h
  split at h
  case h_1 hnone => exact ⟨(StepOut.fail.inj h).symm, hnone⟩
  case h_2 => exact absurd h (by simp)

/-- Inversion of a successful `clear`: the chunk is untouched, the ip
advances by one, and the stack is the pop loop's result. -/
lemma clear_ok_inv {s s1 : VM} (h : clear s = .ok s1) :
    s1.chunk = s.chunk ∧ s1.ip = s.ip + 1 ∧ clear_loop s.stack = some s1.stack := by
  unfold clear at h
  split at h
  case h_1 => exact absurd h (by simp)
  case h_2 st hst =>
    have h1 := StepOut.ok.inj h
    subst h1
    exact ⟨rfl, rfl, hst⟩

/-- Inversion of a successful `step`: the chunk is untouched, the ip stays
within `code`, and a bottom frame on the stack is preserved. -/
lemma step_ok_inv {s s1 : VM} (h : step s = .ok s1) :
    s1.chunk = s.chunk ∧ s1.ip ≤ s.chunk.code.length ∧
      (hasBottomFrame s.stack = true → hasBottomFrame s1.stack = true) := by
  unfold step at h
  split at h
  case h_1 => exact absurd h (by simp)
  case h_2 b hb =>
    have hip : s.ip < s.chunk.code.length := by
      by_contra hge
      rw [List.getElem?_eq_none (by omega)] at hb
      exact absurd hb (by simp)
    split at h
    · obtain ⟨hc, hle, c, hstack⟩ := con_ok_inv h
      exact ⟨hc, hle, fun hs => hstack ▸ hasBottomFrame_cons _ hs⟩
    · obtain ⟨hc, hle, t, rest, heq, hcase⟩ := save_ok_inv h
      refine ⟨hc, hle, fun hs => ?_⟩
      have hrest : hasBottomFrame rest = true :=
        hasBottomFrame_tail (heq ▸ hs) (by simp)
      rcases hcase with ⟨l, i, d, -, hd, hstack⟩ | ⟨l, -, hstack⟩
      · exact hstack ▸ hasBottomFrame_set _ hrest hd
      · exact hstack ▸ hasBottomFrame_cons _ hrest
    · obtain ⟨hc, hle, hcase⟩ := load_ok_inv h
      refine ⟨hc, hle, fun hs => ?_⟩
      rcases hcase with hstack | ⟨d, hstack⟩
      · exact hstack ▸ hs
      · exact hstack ▸ hasBottomFrame_cons _ hs
    · obtain ⟨hc, hipeq, hloop⟩ := clear_ok_inv h
      refine ⟨hc, by omega, fun hs => ?_⟩
      obtain ⟨ys, h1, h2⟩ := clear_loop_hasBottomFrame hs
      rw [h1] at hloop
      rw [← Option.some.inj hloop]
      exact h2

/-- Inversion of a `step` that reports a `RunResult` failure: the chunk
and the ip are untouched, and the stack cannot have had a bottom frame
(only `save`'s and `clear`'s `pop()?` on an exhausted stack fail). -/
lemma step_fail_inv {s s1 : VM} (h : step s = .fail s1) :
    s1.chunk = s.chunk ∧ s1.ip = s.ip ∧ hasBottomFrame s.stack = false := by
  unfold step at h
  split at h
  case h_1 => exact absurd h (by simp)
  case h_2 b hb =>
    split at h
    · exact absurd h con_not_fail
    · obtain ⟨h1, h2⟩ := save_fail_inv h
      subst h1
      refine ⟨rfl, rfl, ?_⟩
      rw [h2]
      simp [hasBottomFrame]
    · exact absurd h load_not_fail
    · obtain ⟨h1, h2⟩ := clear_fail_inv h
      subst h1
      refine ⟨rfl, rfl, ?_⟩
      by_contra hbf
      obtain ⟨ys, h3, -⟩ :=
        clear_loop_hasBottomFrame (by simpa using hbf)
      rw [h3] at h2
      exact absurd h2 (by simp)

/-- The interpreter loop, when it terminates cleanly, keeps the chunk,
drives the ip exactly to the end of `code` (provided it started within
bounds), and preserves a bottom frame on the stack. -/
lemma run_loop_done_inv :
    ∀ (fuel : Nat) {s s1 : VM}, run_loop fuel s = .done s1 →
      s1.chunk = s.chunk ∧
        (s.ip ≤ s.chunk.code.length → s1.ip = s.chunk.code.length) ∧
        (hasBottomFrame s.stack = true → hasBottomFrame s1.stack = true) := by
  intro fuel
  induction fuel with
  | zero => intro s s1 h; exact absurd h (by simp [run_loop])
  | succ n ih =>
    intro s s1 h
    rw [run_loop] at h
    split at h
    case isTrue hlt =>
      cases hst : step s with
      | ok s' =>
        rw [hst] at h
        obtain ⟨hc, hle, hbf⟩ := step_ok_inv hst
        obtain ⟨ihc, ihip, ihbf⟩ := ih h
        refine ⟨by rw [ihc, hc], fun _ => ?_, fun hs => ihbf (hbf hs)⟩
        rw [ihip (by rw [hc]; exact hle), hc]
      | fail s' =>
        rw [hst] at h
        obtain ⟨hc, hip, hbf⟩ := step_fail_inv hst
        obtain ⟨ihc, ihip, ihbf⟩ := ih h
        refine ⟨by rw [ihc, hc], fun _ => ?_, fun hs => ?_⟩
        · rw [ihip (by rw [hc, hip]; omega), hc]
        · rw [hbf] at hs
          exact absurd hs (by simp)
      | panic f =>
        rw [hst] at h
        exact absurd h (by simp)
    case isFalse hge =>
      have h1 : s = s1 := RunOut.done.inj h
      subst h1
      exact ⟨rfl, fun hle => by omega, fun hs => hs⟩

/-! ## Claim theorems -/

/-- C5.  For every chunk, after `run` completes successfully on a VM
initialized with a single bottom `Frame` marker (`VM::init`), the stack
still contains that bottom `Frame` marker: it is non-empty and its bottom
(last) item is the `Frame`; no defined opcode permanently removes it. -/
theorem run_preserves_bottom_frame (c : Chunk) (fuel : Nat) (s1 : VM)
    (h : run VM.init c fuel = .done s1) :
    s1.stack ≠ [] ∧ s1.stack.getLast? = some Item.frame := by
  unfold run at h
  split at h
  case h_1 s' hrl =>
    have h1 := RunOut.done.inj h
    subst h1
    obtain ⟨-, -, hbf⟩ := run_loop_done_inv fuel hrl
    have hbf' := hbf (by simp [VM.init, hasBottomFrame])
    exact ⟨hasBottomFrame_ne_nil hbf', hasBottomFrame_getLast hbf'⟩
  case h_2 r hne =>
    exact absurd h (hne s1)

/-- Witness for C5: on the empty chunk, `run` from `VM::init` completes at
once and the bottom frame is still there. -/
theorem run_preserves_bottom_frame_witness :
    VM.init.stack ≠ [] ∧ VM.init.stack.getLast? = some Item.frame :=
  run_preserves_bottom_frame Chunk.empty 1 VM.init rfl

/-- A two-byte chunk (`Con 0`) with one constant, used to drive a VM's
instruction pointer to 2. -/
def c10chunk : Chunk := ⟨[0, 0], [Data.unit], []⟩

/-- The VM state after running `c10chunk` from `VM::init`: the previous
(empty) chunk restored, one `Data` item above the bottom frame, ip 2. -/
def c10vm : VM := ⟨Chunk.empty, [Item.data (Tagged.ofData Data.unit), Item.frame], 2⟩

/-- Counterexample to C10 as stated: after a first run leaves the ip at 2,
a second successful `run` of the empty chunk on the same VM instance
returns with the ip still 2, which is NOT the executed chunk's code length
(0) — the claim's "for every VM instance, after run(chunk) returns
successfully the instruction pointer equals the executed chunk's code
length" fails on this instance. -/
theorem run_ip_counterexample :
    run VM.init c10chunk 3 = .done c10vm ∧
      run c10vm Chunk.empty 1 = .done c10vm ∧
      c10vm.ip ≠ Chunk.empty.code.length := by
  refine ⟨by decide, by decide, by decide⟩

/-- C10 (amended).  `run` never resets the instruction pointer: when the
pre-run ip is at most the executed chunk's code length (as it is on a
freshly initialized VM, whose ip is 0), a successful `run` returns with
the ip equal to that chunk's code length — it is not restored to its
pre-run value, only the chunk is swapped back — so a subsequent run on the
same VM instance begins decoding at the byte offset where this run
stopped. -/
theorem run_ip_final (v : VM) (c : Chunk) (fuel : Nat) (s1 : VM)
    (h0 : v.ip ≤ c.code.length) (h : run v c fuel = .done s1) :
    s1.ip = c.code.length ∧ s1.chunk = v.chunk ∧ VM.init.ip = 0 := by
  unfold run at h
  split at h
  case h_1 s' hrl =>
    have h1 := RunOut.done.inj h
    subst h1
    obtain ⟨-, hip, -⟩ := run_loop_done_inv fuel hrl
    dsimp only at hip
    exact ⟨hip h0, rfl, rfl⟩
  case h_2 r hne =>
    exact absurd h (hne s1)

/-- Witness for C10 (amended): running `c10chunk` from `VM::init` ends
with the ip at its code length, 2, and the old chunk swapped back. -/
theorem run_ip_final_witness :
    c10vm.ip = c10chunk.code.length ∧ c10vm.chunk = VM.init.chunk ∧ VM.init.ip = 0 :=
  run_ip_final VM.init c10chunk 3 c10vm (by decide) (by decide)

/-- A VM state on which a handler reports failure: an (exhausted) empty
stack about to execute a `Clear` opcode (byte 3).  `clear`'s `pop()?`
returns `None` here. -/
def c3vm : VM := ⟨⟨[3], [], []⟩, [], 0⟩

/-- C3 (failing input).  The source's `run` discards the result of
`self.step();`, so a handler's reported failure is NOT propagated: on
`c3vm` the `Clear` handler reports failure (and, the ip never advancing,
the loop retries the same instruction with the same state forever), so the
loop never terminates for any amount of fuel — the failure never reaches
the caller of `run`, contradicting the claimed propagation. -/
theorem run_swallows_handler_failure :
    step c3vm = .fail c3vm ∧
      (∀ fuel : Nat, run_loop fuel c3vm = .outOfFuel) ∧
      (∀ fuel : Nat, run (⟨Chunk.empty, [], 0⟩ : VM) c3vm.chunk fuel = .outOfFuel) := by
  have hloop : ∀ fuel : Nat, run_loop fuel c3vm = .outOfFuel := by
    intro fuel
    induction fuel with
    | zero => rfl
    | succ n ih =>
      rw [run_loop]
      have hg : c3vm.ip < c3vm.chunk.code.length := by decide
      rw [if_pos hg]
      have hs : step c3vm = .fail c3vm := by decide
      rw [hs]
      exact ih
  refine ⟨by decide, hloop, fun fuel => ?_⟩
  unfold run
  split
  case h_1 s1 heq =>
    have h' : run_loop fuel c3vm = .done s1 := heq
    rw [hloop fuel] at h'
    exact absurd h' (by simp)
  case h_2 r hne =>
    exact hloop fuel

/-- One successful step unrolls one loop iteration. -/
lemma run_loop_cons {s s' : VM} (fuel : Nat) (hlt : s.ip < s.chunk.code.length)
    (hs : step s = .ok s') : run_loop (fuel + 1) s = run_loop fuel s' := by
  rw [run_loop, if_pos hlt, hs]

/-- The loop stops cleanly once the ip has reached the end of `code`. -/
lemma run_loop_stop {s : VM} (fuel : Nat) (h : ¬ s.ip < s.chunk.code.length) :
    run_loop (fuel + 1) s = .done s := by
  rw [run_loop, if_neg h]

/-- The chunk of C4's scenario: `Con 0; Save 0; Load 0` with one constant
`v` and one (fresh) descriptor `l`. -/
def c4chunk (v : Data) (l : Local) : Chunk := ⟨[0, 0, 1, 0, 2, 0], [v], [l]⟩

/-- C4.  For every constant value `v` and fresh descriptor `l`: pushing
the constant, saving it to the descriptor, then loading the descriptor
leaves on top of the stack a `Data` item whose wrapped value dereferences
to a value equal to the original constant `v` (value equality — the
binding holds its own copy, and the loaded item wraps a further copy). -/
theorem con_save_load_round_trip (v : Data) (l : Local) :
    run VM.init (c4chunk v l) 4 =
      .done ⟨Chunk.empty,
        [Item.data (Tagged.ofData v), Item.local_ l v, Item.frame], 6⟩ ∧
      (Tagged.ofData v).deref = v := by
  have h1 : step ⟨c4chunk v l, [Item.frame], 0⟩ =
      .ok ⟨c4chunk v l, [Item.data (Tagged.ofData v), Item.frame], 2⟩ := rfl
  have h2 : step ⟨c4chunk v l, [Item.data (Tagged.ofData v), Item.frame], 2⟩ =
      .ok ⟨c4chunk v l, [Item.local_ l v, Item.frame], 4⟩ := rfl
  have h3 : step ⟨c4chunk v l, [Item.local_ l v, Item.frame], 4⟩ =
      .ok ⟨c4chunk v l,
        [Item.data (Tagged.ofData v), Item.local_ l v, Item.frame], 6⟩ := by
    simp [step, load, local_index, next_number, build_number, build_number_aux,
      find_local, c4chunk, VM.done, Tagged.ofData, Tagged.deref, Opcode.from_byte]
  have hloop : run_loop 4 ⟨c4chunk v l, [Item.frame], 0⟩ =
      .done ⟨c4chunk v l,
        [Item.data (Tagged.ofData v), Item.local_ l v, Item.frame], 6⟩ := by
    rw [show (4 : Nat) = 3 + 1 from rfl, run_loop_cons 3 (by simp [c4chunk]) h1,
      show (3 : Nat) = 2 + 1 from rfl, run_loop_cons 2 (by simp [c4chunk]) h2,
      show (2 : Nat) = 1 + 1 from rfl, run_loop_cons 1 (by simp [c4chunk]) h3,
      show (1 : Nat) = 0 + 1 from rfl, run_loop_stop 0 (by simp [c4chunk])]
  refine ⟨?_, rfl⟩
  unfold run
  split
  case h_1 s1' heq =>
    have h' : run_loop 4 ⟨c4chunk v l, [Item.frame], 0⟩ = .done s1' := heq
    rw [hloop] at h'
    have h1' := RunOut.done.inj h'
    subst h1'
    rfl
  case h_2 r hne =>
    exact absurd
      (show run_loop 4 ({ VM.init with chunk := c4chunk v l }) =
          .done ⟨c4chunk v l,
            [Item.data (Tagged.ofData v), Item.local_ l v, Item.frame], 6⟩ from hloop)
      (hne _)

/-- The pop loop exhausts the stack exactly when every item is `Data`. -/
lemma clear_loop_none_iff :
    ∀ xs : List Item, clear_loop xs = none ↔ ∀ x ∈ xs, isData x = true := by
  intro xs
  induction xs with
  | nil => simp [clear_loop]
  | cons x rest ih =>
    by_cases hx : isData x = true
    · rw [show clear_loop (x :: rest) = clear_loop rest from by simp [clear_loop, hx]]
      simp [hx, ih]
    · rw [show clear_loop (x :: rest) = some (x :: rest) from by simp [clear_loop, hx]]
      simp
      intro hxt
      exact absurd hxt hx

/-- When some item is not `Data`, the pop loop returns the stack with the
maximal top run of `Data` items removed. -/
lemma clear_loop_eq_dropWhile :
    ∀ xs : List Item, (∃ x ∈ xs, isData x = false) →
      clear_loop xs = some (xs.dropWhile isData) := by
  intro xs
  induction xs with
  | nil => rintro ⟨x, hx, -⟩; simp at hx
  | cons x rest ih =>
    rintro ⟨y, hy, hfy⟩
    by_cases hx : isData x = true
    · have hyr : y ∈ rest := by
        rcases List.mem_cons.mp hy with rfl | hr
        · rw [hx] at hfy; exact absurd hfy (by simp)
        · exact hr
      rw [show clear_loop (x :: rest) = clear_loop rest from by simp [clear_loop, hx],
        List.dropWhile_cons_of_pos hx]
      exact ih ⟨y, hyr, hfy⟩
    · rw [show clear_loop (x :: rest) = some (x :: rest) from by simp [clear_loop, hx],
        List.dropWhile_cons_of_neg (by simpa using hx)]

/-- After dropping the top run of `Data` items from a stack that holds a
non-`Data` item, a non-`Data` item is on top. -/
lemma dropWhile_head_false :
    ∀ xs : List Item, (∃ x ∈ xs, isData x = false) →
      ∃ y ys, xs.dropWhile isData = y :: ys ∧ isData y = false := by
  intro xs
  induction xs with
  | nil => rintro ⟨x, hx, -⟩; simp at hx
  | cons x rest ih =>
    rintro ⟨y, hy, hfy⟩
    by_cases hx : isData x = true
    · have hyr : y ∈ rest := by
        rcases List.mem_cons.mp hy with rfl | hr
        · rw [hx] at hfy; exact absurd hfy (by simp)
        · exact hr
      rw [List.dropWhile_cons_of_pos hx]
      exact ih ⟨y, hyr, hfy⟩
    · rw [List.dropWhile_cons_of_neg (by simpa using hx)]
      exact ⟨x, rest, rfl, by simpa using hx⟩

/-- C6.  The `Clear` opcode removes exactly the maximal contiguous run of
`Data` items from the top of the stack (the `takeWhile`), leaves the first
non-`Data` item in place and everything beneath it unchanged (the result
is the `dropWhile`, whose head is non-`Data`), and if the stack is emptied
entirely before a non-`Data` boundary is found (all items were `Data`) it
reports failure instead of succeeding. -/
theorem clear_spec (s : VM) :
    (clear s = .fail { s with stack := [] } ↔ ∀ x ∈ s.stack, isData x = true) ∧
      ((∃ x ∈ s.stack, isData x = false) →
        clear s = .ok (VM.done { s with stack := s.stack.dropWhile isData }) ∧
          (∃ y ys, s.stack.dropWhile isData = y :: ys ∧ isData y = false) ∧
          s.stack = s.stack.takeWhile isData ++ s.stack.dropWhile isData ∧
          ∀ x ∈ s.stack.takeWhile isData, isData x = true) := by
  constructor
  · constructor
    · intro h
      cases hcl : clear_loop s.stack with
      | none => exact (clear_loop_none_iff s.stack).mp hcl
      | some st =>
        unfold clear at h
        rw [hcl] at h
        exact absurd h (by simp)
    · intro hall
      have hcl := (clear_loop_none_iff s.stack).mpr hall
      unfold clear
      rw [hcl]
  · intro hex
    have hdw := clear_loop_eq_dropWhile s.stack hex
    refine ⟨?_, dropWhile_head_false s.stack hex, ?_, fun x hx => List.mem_takeWhile_imp hx⟩
    · unfold clear
      rw [hdw]
    · rw [List.takeWhile_append_dropWhile]

/-- C9.  Invoking `Clear` when the top of stack is already a non-`Data`
item (a `Local` or a `Frame`) is a no-op on the stack: the item is peeked,
pushed back, and the handler succeeds with the stack unchanged (only the
ip advances past the opcode). -/
theorem clear_noop_on_non_data (s : VM) (x : Item) (rest : List Item)
    (h1 : s.stack = x :: rest) (h2 : isData x = false) :
    clear s = .ok (VM.done s) := by
  unfold clear
  have hcl : clear_loop s.stack = some s.stack := by
    rw [h1]
    simp [clear_loop, h2]
  rw [hcl]

/-- Witness for C9: `Clear` on a stack whose top is the bottom `Frame`
leaves the stack untouched. -/
theorem clear_noop_witness :
    clear ⟨Chunk.empty, [Item.frame], 0⟩ = .ok (VM.done ⟨Chunk.empty, [Item.frame], 0⟩) :=
  clear_noop_on_non_data _ Item.frame [] rfl rfl

/-- An item written by `List.set` within bounds is read back at the same
index. -/
lemma getElem?_set_self :
    ∀ (xs : List Item) (i : Nat) (a : Item), i < xs.length → (xs.set i a)[i]? = some a := by
  intro xs
  induction xs with
  | nil => intro i a h; simp at h
  | cons x rest ih =>
    intro i a h
    cases i with
    | zero => simp
    | succ k =>
      rw [List.set_cons_succ]
      simpa using ih k a (by simpa using h)

/-- C7.  When `Load`'s descriptor resolves to a binding at stack index `i`
(`local_index` returns `some i`), the item at `i` is a `Local` binding
with that descriptor, and `load` pushes exactly one new `Data` item
wrapping a clone of the binding's stored value: the stack depth grows by
one and the binding at `i`, like every other pre-existing item, is left
unchanged beneath the new top. -/
theorem load_pushes_clone (s : VM) (l : Local) (i : Nat) (s1 : VM)
    (h : local_index s = .ok (l, some i, s1)) :
    ∃ d, s.stack[i]? = some (Item.local_ l d) ∧
      load s = .ok (VM.done { s1 with stack := Item.data (Tagged.ofData d) :: s.stack }) ∧
      s1.stack = s.stack ∧
      (Item.data (Tagged.ofData d) :: s.stack).length = s.stack.length + 1 := by
  obtain ⟨hc, hst, hr, -, -⟩ := local_index_ok h
  obtain ⟨d, hd⟩ := find_local_sound s.stack l i hr.symm
  have hd1 : s1.stack[i]? = some (Item.local_ l d) := by rw [hst]; exact hd
  refine ⟨d, hd, ?_, hst, by simp⟩
  unfold load
  rw [h]
  dsimp only
  rw [hd1]
  dsimp only
  rw [hst]

/-- Witness for C7: a `Load 0` on a stack holding one binding pushes a
clone of the binding's value. -/
theorem load_pushes_clone_witness :
    ∃ d,
      ((⟨⟨[2, 0], [], [⟨0⟩]⟩, [Item.local_ ⟨0⟩ Data.unit, Item.frame], 0⟩ : VM)).stack[0]? =
          some (Item.local_ ⟨0⟩ d) ∧
        load ⟨⟨[2, 0], [], [⟨0⟩]⟩, [Item.local_ ⟨0⟩ Data.unit, Item.frame], 0⟩ =
          .ok (VM.done ⟨⟨[2, 0], [], [⟨0⟩]⟩,
            [Item.data (Tagged.ofData d), Item.local_ ⟨0⟩ Data.unit, Item.frame], 1⟩) ∧
        (⟨⟨[2, 0], [], [⟨0⟩]⟩, [Item.local_ ⟨0⟩ Data.unit, Item.frame], 1⟩ : VM).stack =
          (⟨⟨[2, 0], [], [⟨0⟩]⟩, [Item.local_ ⟨0⟩ Data.unit, Item.frame], 0⟩ : VM).stack ∧
        (Item.data (Tagged.ofData d) ::
            (⟨⟨[2, 0], [], [⟨0⟩]⟩, [Item.local_ ⟨0⟩ Data.unit, Item.frame], 0⟩ : VM).stack).length =
          (⟨⟨[2, 0], [], [⟨0⟩]⟩, [Item.local_ ⟨0⟩ Data.unit, Item.frame], 0⟩ : VM).stack.length + 1 :=
  load_pushes_clone ⟨⟨[2, 0], [], [⟨0⟩]⟩, [Item.local_ ⟨0⟩ Data.unit, Item.frame], 0⟩
    ⟨0⟩ 0 ⟨⟨[2, 0], [], [⟨0⟩]⟩, [Item.local_ ⟨0⟩ Data.unit, Item.frame], 1⟩ rfl

/-- A VM about to execute `Save 0` whose top of stack is a `Data` item and
whose descriptor 0 already resolves (a binding for it sits in the current
frame): chunk code `[Save, 0]`, stack (top first) `Data(true)`,
`Local 0 = false`, `Frame`. -/
def c2vm : VM :=
  ⟨⟨[1, 0], [], [⟨0⟩]⟩,
    [Item.data (Tagged.ofData (Data.boolean true)),
      Item.local_ ⟨0⟩ (Data.boolean false), Item.frame], 0⟩

/-- The state after that `Save`: the binding replaced in place, the
consumed `Data` gone. -/
def c2vm' : VM :=
  ⟨⟨[1, 0], [], [⟨0⟩]⟩, [Item.local_ ⟨0⟩ (Data.boolean true), Item.frame], 2⟩

/-- Counterexample to C2 as stated: on `c2vm` the descriptor resolves
within the current frame (the replace case), yet the stack depth relative
to before the `Save` is NOT unchanged — it shrinks from 3 to 2, because
the consumed `Data` item is not compensated by a push when the binding is
replaced in place. -/
theorem save_depth_counterexample :
    find_local [Item.local_ (⟨0⟩ : Local) (Data.boolean false), Item.frame] ⟨0⟩ = some 0 ∧
      step c2vm = .ok c2vm' ∧
      c2vm.stack.length = 3 ∧ c2vm'.stack.length = 2 ∧
      c2vm'.stack.length ≠ c2vm.stack.length := by
  refine ⟨by decide, by decide, by decide, by decide, by decide⟩

/-- C2 (amended).  `Save` on a stack whose top is a `Data` item consumes
exactly that one value; relative to the depth before the `Save`, the depth
then DECREASES by one when the descriptor already resolves within the
current frame (the existing binding is replaced in place at the index
`find_local` returned, and nothing is pushed back) and is unchanged when
it does not resolve (a new `Local` item is pushed in place of the consumed
`Data`); equivalently, net of the consumed value the binding action adds
zero or one items.  After a replace, the resolver still finds the same
index, now holding the latest value, so subsequent `Load`s see only the
latest value. -/
theorem save_depth (s s1 : VM) (t : Tagged) (rest : List Item) (l : Local) (r : Option Nat)
    (hstk : s.stack = Item.data t :: rest)
    (hli : local_index { s with stack := rest } = .ok (l, r, s1)) :
    (∀ i, r = some i →
      save s = .ok (VM.done { s1 with stack := rest.set i (Item.local_ l t.deref) }) ∧
        (rest.set i (Item.local_ l t.deref)).length + 1 = s.stack.length ∧
        find_local (rest.set i (Item.local_ l t.deref)) l = some i ∧
        (rest.set i (Item.local_ l t.deref))[i]? = some (Item.local_ l t.deref)) ∧
    (r = none →
      save s = .ok (VM.done { s1 with stack := Item.local_ l t.deref :: rest }) ∧
        (Item.local_ l t.deref :: rest).length = s.stack.length) := by
  obtain ⟨hc, hst, hr, -, -⟩ := local_index_ok hli
  dsimp only at hc hst hr
  cases s with
  | mk ch stk ip =>
    dsimp only at hstk
    subst hstk
    dsimp only at hli hst hr
    constructor
    · intro i hreq
      subst hreq
      obtain ⟨d, hd⟩ := find_local_sound rest l i hr.symm
      have hlen : i < rest.length := by
        by_contra hge
        rw [List.getElem?_eq_none (by omega)] at hd
        exact absurd hd (by simp)
      refine ⟨?_, by simp, find_local_set rest l i t.deref hr.symm,
        getElem?_set_self rest i _ hlen⟩
      unfold save
      dsimp only
      rw [hli]
      dsimp only
      rw [hst]
    · intro hreq
      subst hreq
      refine ⟨?_, by simp⟩
      unfold save
      dsimp only
      rw [hli]
      dsimp only
      rw [hst]

/-- Witness for C2 (amended), replace case: on `c2vm` the `Save` replaces
the binding in place, the depth drops by exactly the consumed value, and
the resolver then sees the latest value at the same index. -/
theorem save_depth_witness :
    save c2vm =
        .ok (VM.done ⟨c2vm.chunk,
          [Item.local_ (⟨0⟩ : Local) (Data.boolean true), Item.frame], 1⟩) ∧
      ([Item.local_ (⟨0⟩ : Local) (Data.boolean false), Item.frame].set 0
          (Item.local_ ⟨0⟩ (Data.boolean true))).length + 1 = c2vm.stack.length ∧
      find_local ([Item.local_ (⟨0⟩ : Local) (Data.boolean false), Item.frame].set 0
          (Item.local_ ⟨0⟩ (Data.boolean true))) ⟨0⟩ = some 0 ∧
      ([Item.local_ (⟨0⟩ : Local) (Data.boolean false), Item.frame].set 0
          (Item.local_ ⟨0⟩ (Data.boolean true)))[0]? =
        some (Item.local_ ⟨0⟩ (Data.boolean true)) := by
  have h := (save_depth c2vm
    ⟨c2vm.chunk, [Item.local_ ⟨0⟩ (Data.boolean false), Item.frame], 1⟩
    (Tagged.ofData (Data.boolean true))
    [Item.local_ ⟨0⟩ (Data.boolean false), Item.frame] ⟨0⟩ (some 0)
    rfl rfl).1 0 rfl
  exact h

/-- C8.  When the operand encoding that follows the opcode at the ip is
truncated (the code bytes end before a complete encoding — `build_number`
finds no terminating byte), executing that instruction yields a decode
fault: `step` aborts with `Fault.decodeFault` — not with `Fault.oobCode`,
the out-of-bounds read past the end of the code sequence, which cannot
occur because the decoder slices from `ip + 1 ≤ code.length` — the loop
propagates it, and the caller of `run` receives exactly that fault.
(For `Save` the top of stack must be a `Data` item, since the source pops
the stack before decoding the operand.) -/
theorem truncated_operand_decode_fault (s : VM) (b : Nat)
    (hb : s.chunk.code[s.ip]? = some b)
    (hop : Opcode.from_byte b = .con ∨ Opcode.from_byte b = .load ∨
      (Opcode.from_byte b = .save ∧ ∃ t rest, s.stack = Item.data t :: rest))
    (htr : build_number (s.chunk.code.drop (s.ip + 1)) = none) :
    step s = .panic .decodeFault ∧
      (∀ fuel : Nat, run_loop (fuel + 1) s = .panic .decodeFault) ∧
      (∀ (fuel : Nat) (c0 : Chunk),
        run { s with chunk := c0 } s.chunk (fuel + 1) = .panic .decodeFault) := by
  have hip : s.ip < s.chunk.code.length := by
    by_contra hge
    rw [List.getElem?_eq_none (by omega)] at hb
    exact absurd hb (by simp)
  have hnn : next_number s = .error .decodeFault := by
    simp only [next_number]
    rw [if_pos (by omega), htr]
  have hstep : step s = .panic .decodeFault := by
    unfold step
    rw [hb]
    dsimp only
    rcases hop with hcon | hload | ⟨hsave, t, rest, hstk⟩
    · rw [hcon]
      dsimp only
      unfold con
      rw [hnn]
    · rw [hload]
      dsimp only
      unfold load local_index
      rw [hnn]
    · rw [hsave]
      dsimp only
      unfold save
      rw [hstk]
      dsimp only
      have hnn2 : next_number { s with stack := rest } = .error .decodeFault := by
        simp only [next_number]
        rw [if_pos (by omega), htr]
      unfold local_index
      rw [hnn2]
  have hloop : ∀ fuel : Nat, run_loop (fuel + 1) s = .panic .decodeFault := by
    intro fuel
    rw [run_loop, if_pos hip, hstep]
  refine ⟨hstep, hloop, fun fuel c0 => ?_⟩
  unfold run
  split
  case h_1 s1' heq =>
    have h' : run_loop (fuel + 1) s = .done s1' := heq
    rw [hloop fuel] at h'
    exact absurd h' (by simp)
  case h_2 r hne =>
    exact hloop fuel

/-- A chunk whose single instruction `Con` is followed by a truncated
operand: the byte 128 opens a multi-byte encoding that never ends. -/
def c8vm : VM := ⟨⟨[0, 128], [], []⟩, [Item.frame], 0⟩

/-- Witness for C8: the truncated operand of `c8vm` produces exactly a
decode fault, at the step, at the loop, and at `run`'s caller. -/
theorem truncated_operand_decode_fault_witness :
    step c8vm = .panic .decodeFault ∧
      (∀ fuel : Nat, run_loop (fuel + 1) c8vm = .panic .decodeFault) ∧
      (∀ (fuel : Nat) (c0 : Chunk),
        run { c8vm with chunk := c0 } c8vm.chunk (fuel + 1) = .panic .decodeFault) :=
  truncated_operand_decode_fault c8vm 0 rfl (Or.inl rfl) rfl
